import Mathlib

/-!
Verification development for the lead scoring/dedup/prioritization pipeline
in `backend/lead_quality_prioritizer.py`.

The Python functions are shallowly embedded as executable Lean definitions:
* lead records (Python dicts mapping field names to string values) become
  association lists `List (String × String)`;
* Python floats become exact rationals `ℚ` (all constants in the source are
  small decimals, so the idealized real-number semantics is `ℚ`);
* Python ints become `ℤ`;
* `round` is Python's round-half-to-even;
* the optional external dependencies are modelled as absent (`tldextract`
  and `dnspython` are not installed), i.e. the source's fallback branches
  are embedded; the network MX lookup is an oracle parameter
  `String → Option Bool` (`none` = resolver unavailable);
* string manipulation is implemented by structural recursion on `List Char`
  mirroring the Python `str` operations used by the source
  (`strip`, `lower`, `split`, `re.sub(r'\s+', ' ', ·)`, ...).
-/

namespace LeadQP

/-- The whitespace characters of Python's `str.strip` / `\s` (ASCII range). -/
def pyIsSpace (c : Char) : Bool :=
  c = ' ' || c = '\t' || c = '\n' || c = '\r' || c = '\x0b' || c = '\x0c'

/-- Python `str.strip()` on a character list: drop whitespace on both ends. -/
def pyStrip (l : List Char) : List Char :=
  ((l.dropWhile pyIsSpace).reverse.dropWhile pyIsSpace).reverse

/-- Worker for `re.sub(r'\s+', ' ', s)`: `prevWs` records whether the previous
character was part of a whitespace run (in which case further whitespace is
dropped rather than emitted). -/
def collapseAux : Bool → List Char → List Char
  | _, [] => []
  | prevWs, c :: rest =>
    if pyIsSpace c then
      if prevWs then collapseAux true rest
      else ' ' :: collapseAux true rest
    else c :: collapseAux false rest

/-- Python `re.sub(r'\s+', ' ', s)`: replace each maximal whitespace run by one space. -/
def collapseWs (l : List Char) : List Char := collapseAux false l

/-- Python `str.lower()` (ASCII, matching the data handled by the source). -/
def pyLower (l : List Char) : List Char := l.map Char.toLower

/-- Source `normalize(s)`: `None` becomes `''`; otherwise
`re.sub(r'\s+', ' ', str(s).strip()).lower()`. -/
def normalize (s : Option String) : String :=
  match s with
  | none => ""
  | some v => ⟨pyLower (collapseWs (pyStrip v.data))⟩

/-- Source `normalize` applied to a present string value. -/
def normalizeS (s : String) : String := normalize (some s)

/-- Python `str.strip()` on strings. -/
def pyStripStr (s : String) : String := ⟨pyStrip s.data⟩

/-- Python `str.lower()` on strings. -/
def pyLowerStr (s : String) : String := ⟨pyLower s.data⟩

/-- Python `s.split(sep)` for a one-character separator: always returns at
least one (possibly empty) segment, and `n` separators produce `n+1` segments. -/
def splitOnChar (sep : Char) : List Char → List (List Char)
  | [] => [[]]
  | c :: rest =>
    match splitOnChar sep rest with
    | [] => [[c]]
    | w :: ws => if c = sep then [] :: w :: ws else (c :: w) :: ws

/-- Python `'.'.join parts` on character lists. -/
def joinDot : List (List Char) → List Char
  | [] => []
  | [w] => w
  | w :: ws => w ++ '.' :: joinDot ws

/-- Source `extract_domain_from_email(email)`: empty on falsy input; otherwise
strip + lowercase, split on `'@'`, return the second part iff there are
exactly two parts. -/
def extract_domain_from_email (email : String) : String :=
  if email = "" then ""
  else
    match splitOnChar '@' (pyLower (pyStrip email.data)) with
    | [_, b] => ⟨b⟩
    | _ => ""

/-- The `PERSONAL_EMAIL_DOMAINS` set of the source. -/
def PERSONAL_EMAIL_DOMAINS : List String :=
  ["gmail.com", "yahoo.com", "hotmail.com", "outlook.com", "aol.com",
   "icloud.com", "me.com", "protonmail.com", "ymail.com", "gmx.com"]

/-- Source `is_personal_email_domain(domain)`. -/
def is_personal_email_domain (domain : String) : Bool :=
  if domain = "" then false
  else PERSONAL_EMAIL_DOMAINS.contains (pyLowerStr domain)

/-- Character class `[A-Za-z0-9._%+-]` (local part of the email regex). -/
def isLocalChar (c : Char) : Bool :=
  c.isAlphanum || c = '.' || c = '_' || c = '%' || c = '+' || c = '-'

/-- Character class `[A-Za-z0-9.-]` (host part of the email regex). -/
def isHostChar (c : Char) : Bool :=
  c.isAlphanum || c = '.' || c = '-'

/-- Matcher for the `[A-Za-z0-9.-]+\.[A-Za-z]{2,}$` tail of the email regex:
with backtracking, the pattern matches `b` iff the segment after the last dot
is two-or-more letters and the (nonempty) remainder consists of host
characters. -/
def hostTldOk (b : List Char) : Bool :=
  match (splitOnChar '.' b).reverse with
  | tld :: w :: ws =>
    let host := joinDot ((w :: ws).reverse)
    (!host.isEmpty) && host.all isHostChar &&
      decide (2 ≤ tld.length) && tld.all Char.isAlpha
  | _ => false

/-- Source `email_syntax_valid(email)`: falsy input is invalid; otherwise the
stripped string must match `^[A-Za-z0-9._%+-]+@[A-Za-z0-9.-]+\.[A-Za-z]{2,}$`
(neither character class contains `'@'`, so exactly one `'@'` must occur). -/
def email_syntax_valid (email : String) : Bool :=
  if email = "" then false
  else
    match splitOnChar '@' (pyStrip email.data) with
    | [a, b] => (!a.isEmpty) && a.all isLocalChar && hostTldOk b
    | _ => false

/-- Python `'.'.join(s.split('.')[-2:])`: the last-two-labels fallback used by the
source when `tldextract` is unavailable. -/
def lastTwoLabels (s : String) : String :=
  let parts := splitOnChar '.' s.data
  ⟨joinDot (parts.drop (parts.length - 2))⟩

/-- Python `urlparse(u).hostname or ''` for a string that starts with `http://` or
`https://`: the netloc runs up to the first `/`, `?` or `#`; userinfo (up to
the last `'@'`) is removed; a bracketed IPv6 literal is the bracket contents;
otherwise the port (after `':'`) is removed. -/
def parseHostname (u : List Char) : List Char :=
  let rest :=
    if "http://".data.isPrefixOf u then u.drop 7
    else if "https://".data.isPrefixOf u then u.drop 8
    else u
  let netloc := rest.takeWhile (fun c => !(c = '/' || c = '?' || c = '#'))
  let hostport := ((splitOnChar '@' netloc).getLastD [])
  match hostport with
  | '[' :: inner => inner.takeWhile (fun c => c ≠ ']')
  | _ => hostport.takeWhile (fun c => c ≠ ':')

/-- Source `extract_domain_from_url(url)` with `tldextract` unavailable:
strip, default the scheme to `http://`, parse the hostname, lowercase it, and
fall back to the last two dot-separated labels. -/
def extract_domain_from_url (url : String) : String :=
  if url = "" then ""
  else
    let u := pyStrip url.data
    if u.isEmpty then ""
    else
      let u2 := if "http://".data.isPrefixOf u || "https://".data.isPrefixOf u
                then u
                else "http://".data ++ u
      let host := pyLower (parseHostname u2)
      let parts := splitOnChar '.' host
      if 2 ≤ parts.length then ⟨joinDot (parts.drop (parts.length - 2))⟩
      else ⟨host⟩

/-- Character class `\w` for the word-boundary semantics of the seniority regexes. -/
def isWordChar (c : Char) : Bool := c.isAlphanum || c = '_'

/-- A `\b` word boundary holds between two (optional) characters iff exactly
one of them is a word character. -/
def wordBoundary (a b : Option Char) : Bool :=
  (a.elim false isWordChar) != (b.elim false isWordChar)

/-- Predicate: `\b<kw>\b` matches at the head of `s` (with `prev` the character before
`s`, if any). -/
def matchesAt (kw : List Char) (prev : Option Char) (s : List Char) : Bool :=
  kw.isPrefixOf s && wordBoundary prev kw.head? &&
    wordBoundary kw.getLast? ((s.drop kw.length).head?)

/-- Python `re.search(r'\b<kw>\b', s)`: the pattern matches at some position of `s`. -/
def wbSearch (kw : List Char) : Option Char → List Char → Bool
  | prev, s =>
    matchesAt kw prev s ||
      match s with
      | [] => false
      | c :: rest => wbSearch kw (some c) rest

/-- The `TITLE_KEYWORDS` table of the source: each regex
`\b(alt₁|alt₂|...)\b` is expanded into its list of literal alternatives,
paired with its value. -/
def TITLE_KEYWORDS : List (List String × ℚ) :=
  [ (["clevel", "c-level", "c level", "ceo", "chief executive officer",
      "coo", "cfo", "cto", "chief technology officer",
      "chief financial officer", "founder", "co-founder"], 1.0),
    (["president", "vp", "vice president", "vice-president",
      "head of", "head,", "head "], 0.85),
    (["director", "senior director", "sr director"], 0.7),
    (["manager", "senior manager", "mgr"], 0.5),
    (["lead", "principal"], 0.6),
    (["engineer", "developer", "analyst", "specialist", "associate"], 0.3) ]

/-- Source `seniority_score(job_title)`: `0.0` on a falsy title, else the
maximum value over the keyword rules matching the normalized title. -/
def seniority_score (job_title : String) : ℚ :=
  if job_title = "" then 0
  else
    let title := normalizeS job_title
    TITLE_KEYWORDS.foldl
      (fun best rule =>
        if rule.1.any (fun kw => wbSearch kw.data none title.data) then
          max best rule.2
        else best)
      0

/-- A lead record: a Python dict from field name to string value, embedded as
an association list (first binding wins, mirroring dict key uniqueness). -/
abbrev Lead := List (String × String)

/-- Python `lead.get(k)` with both a missing key and `None` modelled as `""` (the
source always coerces the two to `''` before use). -/
def getF (lead : Lead) (k : String) : String :=
  match lead.find? (fun kv => kv.1 == k) with
  | some kv => kv.2
  | none => ""

/-- The `WEIGHTS` dict of the source. -/
def WEIGHTS (k : String) : ℚ :=
  if k = "completeness" then 0.30
  else if k = "seniority" then 0.30
  else if k = "email_validity" then 0.20
  else if k = "domain_match" then 0.10
  else if k = "company_signal" then 0.10
  else 0

/-- Python `round(q)`: round half to even, as an integer. -/
def pyRound (q : ℚ) : ℤ :=
  if q - q.floor < 1/2 then q.floor
  else if 1/2 < q - q.floor then q.floor + 1
  else if q.floor % 2 = 0 then q.floor else q.floor + 1

/-- Python `round(q, n)`: round half to even at `n` decimal digits
(idealized over `ℚ`). -/
def pyRoundTo (n : ℕ) (q : ℚ) : ℚ :=
  (pyRound (q * 10 ^ n) : ℚ) / 10 ^ n

/-- Source `completeness_score(lead)`: weighted presence of email, phone,
linkedin and company domain-or-name, normalized by `3.0` and capped at `1`. -/
def completeness_score (lead : Lead) : ℚ :=
  let score : ℚ :=
    (if getF lead "email" ≠ "" then 1.0 else 0) +
    (if getF lead "phone" ≠ "" then 0.6 else 0) +
    (if getF lead "linkedin_url" ≠ "" then 0.6 else 0) +
    (if getF lead "company_domain" ≠ "" ∨ getF lead "company_name" ≠ ""
     then 0.8 else 0)
  min (score / 3) 1

/-- Source `domain_match_score(lead)` with `tldextract` unavailable (the
registered domain degrades to the last two dot-separated labels). -/
def domain_match_score (lead : Lead) : ℚ :=
  let email := getF lead "email"
  let cdom := getF lead "company_domain"
  if email = "" ∨ cdom = "" then 0
  else
    let ed := extract_domain_from_email email
    let cd := normalizeS cdom
    let ed_r := if ed.data.contains '@' then extract_domain_from_email ed else ed
    let e_reg := if ed_r ≠ "" then lastTwoLabels ed_r else ""
    let c_reg := if cd ≠ "" then lastTwoLabels cd else ""
    if e_reg = "" ∨ c_reg = "" then 0
    else if e_reg = c_reg then 1 else 0

/-- Predicate: `c` is one of the characters kept by the source's
`re.sub` filter that keeps only digits and dots. -/
def isDigitOrDot (c : Char) : Bool := c.isDigit || c = '.'

/-- The numeric value of a digit string (empty = 0), as `float`'s integer
part parser sees it. -/
def digitsVal (l : List Char) : ℕ :=
  l.foldl (fun acc c => acc * 10 + (c.toNat - '0'.toNat)) 0

/-- Python `float(s)` for a string of digits and dots: defined iff `s` has at
most one dot and at least one digit. -/
def pyFloatDigitsDots (l : List Char) : Option ℚ :=
  match splitOnChar '.' l with
  | [a] => if a.isEmpty then none else some (digitsVal a)
  | [a, b] =>
    if a.isEmpty && b.isEmpty then none
    else some ((digitsVal a : ℚ) + (digitsVal b : ℚ) / 10 ^ b.length)
  | _ => none

/-- The `estimated_revenue` contribution inside `company_signal_score`: the
increment made by the `try` block, with a raised `ValueError` (malformed
number) contributing `0`. -/
def revContrib (rev : String) : ℚ :=
  if rev = "" then 0
  else
    match pyFloatDigitsDots (rev.data.filter isDigitOrDot) with
    | none => 0
    | some v => min v 10000000 / 10000000 * 0.4

/-- Source `company_signal_score(lead)`: `+0.6` for a truthy email whose
extracted domain is not a personal webmail domain, plus the revenue
contribution, capped at `1`. -/
def company_signal_score (lead : Lead) : ℚ :=
  let email := getF lead "email"
  let score : ℚ :=
    if email ≠ "" then
      (if is_personal_email_domain (extract_domain_from_email email) then 0
       else 0.6)
    else 0
  min (score + revContrib (getF lead "estimated_revenue")) 1

/-- The MX-check boost of `email_validity_score`: `+0.1` only when the check
was requested (`mx_check is True`) and the lookup (whose result the oracle
supplied, `none` meaning `dnspython` is unavailable) found MX records. -/
def mxBoost (mx_check : Option Bool) (mx : Option Bool) : ℚ :=
  match mx_check with
  | some true => (match mx with | some true => 0.1 | _ => 0)
  | some false => 0
  | none => 0

/-- Source `email_validity_score(lead, mx_check)`. `mx_check` is the Python
three-state flag (`True` / `False` / `None`); `mxOracle` models `mx_lookup`
(`none` = `dnspython` unavailable, i.e. "unchecked"). -/
def email_validity_score (lead : Lead) (mx_check : Option Bool)
    (mxOracle : String → Option Bool) : ℚ :=
  let email := getF lead "email"
  if email = "" then 0
  else
    let s1 : ℚ := if email_syntax_valid email then 0.6 else 0
    let d := extract_domain_from_email email
    let s2 := s1 + (if d ≠ "" ∧ ¬is_personal_email_domain d then 0.3 else 0)
    let s3 := s2 + mxBoost mx_check (mxOracle d)
    min s3 1

/-- The rounded breakdown dict returned by `compute_lead_score`. -/
structure Breakdown where
  completeness : ℚ
  seniority : ℚ
  email_validity : ℚ
  domain_match : ℚ
  company_signal : ℚ
  raw_weighted : ℚ
deriving DecidableEq, Repr

/-- The exact weighted sum formed inside `compute_lead_score` (the value that
is rounded into `score` and `raw_weighted`). -/
def rawWeighted (lead : Lead) (mx_check : Option Bool)
    (mxOracle : String → Option Bool) : ℚ :=
  WEIGHTS "completeness" * completeness_score lead +
  WEIGHTS "seniority" * seniority_score (getF lead "job_title") +
  WEIGHTS "email_validity" * email_validity_score lead mx_check mxOracle +
  WEIGHTS "domain_match" * domain_match_score lead +
  WEIGHTS "company_signal" * company_signal_score lead

/-- Source `compute_lead_score(lead, mx_check)`: the integer score
`int(round(raw * 100))` together with the rounded breakdown. -/
def compute_lead_score (lead : Lead) (mx_check : Option Bool)
    (mxOracle : String → Option Bool) : ℤ × Breakdown :=
  let c := completeness_score lead
  let s := seniority_score (getF lead "job_title")
  let e := email_validity_score lead mx_check mxOracle
  let d := domain_match_score lead
  let cs := company_signal_score lead
  let raw := rawWeighted lead mx_check mxOracle
  (pyRound (raw * 100),
   { completeness := pyRoundTo 3 c
     seniority := pyRoundTo 3 s
     email_validity := pyRoundTo 3 e
     domain_match := pyRoundTo 3 d
     company_signal := pyRoundTo 3 cs
     raw_weighted := pyRoundTo 4 raw })

/-- Source `count_nonempty_fields(lead)`: the number of dict entries whose
value is not `None`, `''` or `[]` (only `''` is representable here). -/
def count_nonempty_fields (lead : Lead) : ℕ :=
  (lead.filter (fun kv => kv.2 ≠ "")).length

/-- The email grouping key used by `dedupe_leads`. -/
def ekey (L : Lead) : String := normalizeS (getF L "email")

/-- The name+domain grouping key used by `dedupe_leads` for no-email leads. -/
def nkey (L : Lead) : String × String :=
  (normalizeS (if getF L "full_name" ≠ "" then getF L "full_name"
               else getF L "first_name" ++ " " ++ getF L "last_name"),
   normalizeS (getF L "company_domain"))

/-- One dict update of the dedupe maps: a new key is appended (Python dicts
keep insertion order); an existing key keeps its position and keeps its value
unless the new lead has strictly more non-empty fields. -/
def insUpd {K : Type} [DecidableEq K] :
    List (K × Lead) → K → Lead → List (K × Lead)
  | [], k, L => [(k, L)]
  | (k', e) :: rest, k, L =>
    if k' = k then
      (if count_nonempty_fields e < count_nonempty_fields L then (k, L)
       else (k', e)) :: rest
    else (k', e) :: insUpd rest k L

/-- A grouping pass of `dedupe_leads`: fold the leads into a dict keyed by
`key`, resolving collisions through `insUpd`. -/
def dictFold {K : Type} [DecidableEq K] (key : Lead → K)
    (init : List (K × Lead)) (ls : List Lead) : List (K × Lead) :=
  ls.foldl (fun m L => insUpd m (key L) L) init

/-- The first loop of `dedupe_leads`: build `by_email` and collect `no_email`
in input order. -/
def dedupePhase1 (acc : List (String × Lead) × List Lead) (ls : List Lead) :
    List (String × Lead) × List Lead :=
  ls.foldl
    (fun acc L =>
      if ekey L = "" then (acc.1, acc.2 ++ [L])
      else (insUpd acc.1 (ekey L) L, acc.2))
    acc

/-- Source `dedupe_leads(leads)`: group has-email leads by normalized email,
then the rest by (normalized name, normalized company domain), keeping the
richer lead per key, and concatenate the kept leads in first-seen key order. -/
def dedupe_leads (leads : List Lead) : List Lead :=
  let p := dedupePhase1 ([], []) leads
  let by_name_dom := dictFold nkey [] p.2
  p.1.map Prod.snd ++ by_name_dom.map Prod.snd

/-- A record carrying the integer `score` attached by the pipeline
(`x.get('score', 0)` — every record handed to `prioritize` has one). -/
structure ScoredLead where
  lead : Lead
  score : ℤ
deriving DecidableEq, Repr

/-- Insert into a descending run: `x` goes in front of the first element
whose score does not exceed `x`'s. -/
def insertDesc (x : ScoredLead) : List ScoredLead → List ScoredLead
  | [] => [x]
  | y :: ys => if y.score ≤ x.score then x :: y :: ys else y :: insertDesc x ys

/-- Python `sorted(leads_scored, key=lambda x: x.get('score', 0), reverse=True)`:
Python's sort is stable, embedded as a stable insertion sort (sortedness,
permutation and stability are proved below). -/
def sortDescScore (l : List ScoredLead) : List ScoredLead :=
  l.foldr insertDesc []

/-- The selection loop of `prioritize`: take records from the front while the
remaining budget covers `per_cost`. -/
def selectLoop (per_cost : ℤ) : List ScoredLead → ℤ → List ScoredLead
  | [], _ => []
  | x :: xs, budget =>
    if per_cost ≤ budget then x :: selectLoop per_cost xs (budget - per_cost)
    else []

/-- Source `prioritize(leads_scored, credits, cost_per_enrich)`. -/
def prioritize (leads_scored : List ScoredLead) (credits cost_per_enrich : ℤ) :
    List ScoredLead :=
  selectLoop cost_per_enrich (sortDescScore leads_scored) credits

/-- The lead `{email: "bob@gmail.com"}` of the spec's second scoring
scenario. -/
def bobLead : Lead := [("email", "bob@gmail.com")]

/-! ### Character-level lemmas -/

theorem char_toNat_ofNat_valid (n : ℕ) (h : n.isValidChar) :
    (Char.ofNat n).toNat = n := by
  unfold Char.ofNat
  rw [dif_pos h]
  rfl

theorem char_eq_iff_toNat (c d : Char) : (c = d) ↔ c.toNat = d.toNat := by
  constructor
  · intro h; rw [h]
  · intro h; exact Char.ext (UInt32.ext h)

theorem pyIsSpace_toNat (c : Char) :
    pyIsSpace c = (c.toNat = 32 || c.toNat = 9 || c.toNat = 10 ||
      c.toNat = 13 || c.toNat = 11 || c.toNat = 12 : Bool) := by
  simp only [pyIsSpace, char_eq_iff_toNat]
  rfl

theorem pyIsSpace_false_of_ge (c : Char) (h1 : 33 ≤ c.toNat) :
    pyIsSpace c = false := by
  rw [pyIsSpace_toNat]
  simp only [Bool.or_eq_false_iff, decide_eq_false_iff_not]
  omega

theorem toLower_toLower (c : Char) : c.toLower.toLower = c.toLower := by
  unfold Char.toLower
  by_cases h : c.toNat ≥ 65 ∧ c.toNat ≤ 90
  · rw [if_pos h]
    have ht : (Char.ofNat (c.toNat + 32)).toNat = c.toNat + 32 :=
      char_toNat_ofNat_valid _ (Or.inl (by omega))
    rw [ht, if_neg (by omega)]
  · rw [if_neg h, if_neg h]

theorem pyIsSpace_toLower (c : Char) : pyIsSpace c.toLower = pyIsSpace c := by
  unfold Char.toLower
  by_cases h : c.toNat ≥ 65 ∧ c.toNat ≤ 90
  · rw [if_pos h]
    have ht : (Char.ofNat (c.toNat + 32)).toNat = c.toNat + 32 :=
      char_toNat_ofNat_valid _ (Or.inl (by omega))
    rw [pyIsSpace_false_of_ge _ (by omega), pyIsSpace_false_of_ge _ (by omega)]
  · rw [if_neg h]

/-! ### `normalize` is idempotent (claim C9) -/

/-- No whitespace character at the head. -/
def HeadNotWs (l : List Char) : Prop :=
  ∀ c, l.head? = some c → pyIsSpace c = false

/-- No whitespace character at the end. -/
def LastNotWs (l : List Char) : Prop :=
  ∀ c, l.getLast? = some c → pyIsSpace c = false

theorem headNotWs_dropWhile (l : List Char) :
    HeadNotWs (l.dropWhile pyIsSpace) := by
  induction l with
  | nil => intro c h; simp at h
  | cons a as ih =>
    intro c h
    rw [List.dropWhile_cons] at h
    by_cases ha : pyIsSpace a
    · rw [if_pos ha] at h
      exact ih c h
    · rw [if_neg ha] at h
      simp at h
      rw [← h]
      simpa using ha

theorem head?_of_isPrefix {l₁ l₂ : List Char} (h : l₁ <+: l₂) (c : Char)
    (hc : l₁.head? = some c) : l₂.head? = some c := by
  obtain ⟨t, rfl⟩ := h
  cases l₁ with
  | nil => simp at hc
  | cons a as => simpa using hc

theorem headNotWs_pyStrip (l : List Char) : HeadNotWs (pyStrip l) := by
  intro c hc
  have hpre : pyStrip l <+: l.dropWhile pyIsSpace := by
    have hs : (l.dropWhile pyIsSpace).reverse.dropWhile pyIsSpace
        <:+ (l.dropWhile pyIsSpace).reverse := List.dropWhile_suffix _
    have := Iff.mpr List.reverse_prefix hs
    simpa [pyStrip] using this
  exact headNotWs_dropWhile l c (head?_of_isPrefix hpre c hc)

theorem lastNotWs_pyStrip (l : List Char) : LastNotWs (pyStrip l) := by
  intro c hc
  rw [List.getLast?_eq_head?_reverse] at hc
  have : (pyStrip l).reverse = (l.dropWhile pyIsSpace).reverse.dropWhile pyIsSpace := by
    simp [pyStrip]
  rw [this] at hc
  exact headNotWs_dropWhile _ c hc

theorem headNotWs_collapseAux (l : List Char) (h : HeadNotWs l) :
    HeadNotWs (collapseAux false l) := by
  cases l with
  | nil => intro c hc; simp [collapseAux] at hc
  | cons a as =>
    intro c hc
    have ha : pyIsSpace a = false := h a rfl
    rw [collapseAux, if_neg (by simp [ha])] at hc
    simp at hc
    rw [← hc]
    exact ha

theorem getLast?_cons_of_ne_nil {α : Type} (a : α) {l : List α} (h : l ≠ []) :
    (a :: l).getLast? = l.getLast? := by
  cases l with
  | nil => exact absurd rfl h
  | cons b bs => exact List.getLast?_cons_cons

theorem collapseAux_ne_nil_lastNotWs (l : List Char) (hne : l ≠ [])
    (h : LastNotWs l) :
    ∀ b, collapseAux b l ≠ [] ∧ LastNotWs (collapseAux b l) := by
  induction l with
  | nil => exact absurd rfl hne
  | cons a as ih =>
    intro b
    by_cases has : as = []
    · subst has
      have ha : pyIsSpace a = false := h a rfl
      rw [collapseAux, if_neg (by simp [ha])]
      refine ⟨by simp, ?_⟩
      intro c hc
      simp [collapseAux] at hc
      rw [← hc]
      exact ha
    · have hlast : LastNotWs as := by
        intro c hc
        exact h c (by rw [getLast?_cons_of_ne_nil a has]; exact hc)
      have ihs := ih has hlast
      rw [collapseAux]
      by_cases ha : pyIsSpace a
      · rw [if_pos ha]
        cases b with
        | true =>
          rw [if_pos rfl]
          exact ihs true
        | false =>
          rw [if_neg Bool.false_ne_true]
          refine ⟨by simp, ?_⟩
          intro c hc
          rw [getLast?_cons_of_ne_nil _ (ihs true).1] at hc
          exact (ihs true).2 c hc
      · rw [if_neg ha]
        refine ⟨by simp, ?_⟩
        intro c hc
        rw [getLast?_cons_of_ne_nil _ (ihs false).1] at hc
        exact (ihs false).2 c hc

theorem lastNotWs_collapseAux (l : List Char) (h : LastNotWs l) (b : Bool) :
    LastNotWs (collapseAux b l) := by
  by_cases hne : l = []
  · subst hne
    intro c hc
    simp [collapseAux] at hc
  · exact (collapseAux_ne_nil_lastNotWs l hne h b).2

theorem collapseAux_idem (l : List Char) :
    ∀ b, collapseAux b (collapseAux b l) = collapseAux b l := by
  induction l with
  | nil => intro b; rfl
  | cons a as ih =>
    intro b
    by_cases ha : pyIsSpace a
    · cases b with
      | true =>
        rw [collapseAux, if_pos ha, if_pos rfl, ih true]
      | false =>
        rw [collapseAux, if_pos ha, if_neg Bool.false_ne_true, collapseAux,
          if_pos (by decide), if_neg Bool.false_ne_true, ih true]
    · rw [collapseAux, if_neg (by simp [ha]), collapseAux,
        if_neg (by simp [ha]), ih false]

theorem collapseAux_map_toLower (l : List Char) :
    ∀ b, collapseAux b (l.map Char.toLower) = (collapseAux b l).map Char.toLower := by
  induction l with
  | nil => intro b; rfl
  | cons a as ih =>
    intro b
    by_cases ha : pyIsSpace a
    · cases b with
      | true =>
        rw [List.map_cons, collapseAux, if_pos (by rw [pyIsSpace_toLower]; exact ha),
          if_pos rfl, collapseAux, if_pos ha, if_pos rfl, ih true]
      | false =>
        rw [List.map_cons, collapseAux, if_pos (by rw [pyIsSpace_toLower]; exact ha),
          if_neg Bool.false_ne_true, collapseAux, if_pos ha,
          if_neg Bool.false_ne_true, List.map_cons, ih true]
        rfl
    · rw [List.map_cons, collapseAux, if_neg (by rw [pyIsSpace_toLower]; simp [ha]),
        collapseAux, if_neg (by simp [ha]), List.map_cons, ih false]

theorem dropWhile_eq_self_of_headNotWs (l : List Char) (h : HeadNotWs l) :
    l.dropWhile pyIsSpace = l := by
  cases l with
  | nil => rfl
  | cons a as =>
    rw [List.dropWhile_cons, if_neg (by simp [h a rfl])]

theorem pyStrip_eq_self (l : List Char) (h1 : HeadNotWs l) (h2 : LastNotWs l) :
    pyStrip l = l := by
  unfold pyStrip
  rw [dropWhile_eq_self_of_headNotWs l h1]
  rw [dropWhile_eq_self_of_headNotWs l.reverse
    (by intro c hc
        rw [List.head?_reverse] at hc
        exact h2 c hc)]
  exact List.reverse_reverse l

theorem map_toLower_idem (l : List Char) :
    (l.map Char.toLower).map Char.toLower = l.map Char.toLower := by
  rw [List.map_map]
  exact List.map_congr_left (fun c _ => toLower_toLower c)

theorem headNotWs_map_toLower (l : List Char) (h : HeadNotWs l) :
    HeadNotWs (l.map Char.toLower) := by
  intro c hc
  rw [List.head?_map] at hc
  cases hl : l.head? with
  | none => rw [hl] at hc; simp at hc
  | some d =>
    rw [hl] at hc
    simp at hc
    rw [← hc, pyIsSpace_toLower]
    exact h d hl

theorem lastNotWs_map_toLower (l : List Char) (h : LastNotWs l) :
    LastNotWs (l.map Char.toLower) := by
  intro c hc
  rw [List.getLast?_map] at hc
  cases hl : l.getLast? with
  | none => rw [hl] at hc; simp at hc
  | some d =>
    rw [hl] at hc
    simp at hc
    rw [← hc, pyIsSpace_toLower]
    exact h d hl

theorem normalizeCore_idem (u : List Char) :
    pyLower (collapseWs (pyStrip (pyLower (collapseWs (pyStrip u)))))
      = pyLower (collapseWs (pyStrip u)) := by
  set t := pyLower (collapseWs (pyStrip u)) with ht
  have hheadX : HeadNotWs (collapseAux false (pyStrip u)) :=
    headNotWs_collapseAux _ (headNotWs_pyStrip u)
  have hlastX : LastNotWs (collapseAux false (pyStrip u)) :=
    lastNotWs_collapseAux _ (lastNotWs_pyStrip u) false
  have hhead : HeadNotWs t := headNotWs_map_toLower _ hheadX
  have hlast : LastNotWs t := lastNotWs_map_toLower _ hlastX
  have hstrip : pyStrip t = t := pyStrip_eq_self t hhead hlast
  have hcollapse : collapseWs t = t := by
    rw [ht]
    unfold collapseWs pyLower
    rw [collapseAux_map_toLower, collapseAux_idem]
  have hlower : pyLower t = t := by
    rw [ht]
    unfold pyLower
    exact map_toLower_idem _
  rw [hstrip, hcollapse, hlower]

theorem normalizeS_idem (s : String) : normalizeS (normalizeS s) = normalizeS s :=
  congrArg String.mk (normalizeCore_idem s.data)

/-! ### Rounding lemmas -/

theorem ratFloor_cast_le (q : ℚ) : (q.floor : ℚ) ≤ q := Rat.le_floor.1 le_rfl

theorem lt_ratFloor_add_one (q : ℚ) : q < (q.floor : ℚ) + 1 := by
  by_contra h
  push_neg at h
  have h2 : q.floor + 1 ≤ q.floor := Rat.le_floor.2 (by push_cast; linarith)
  omega

theorem ratFloor_eq (z : ℤ) (q : ℚ) (h1 : (z : ℚ) ≤ q) (h2 : q < (z : ℚ) + 1) :
    q.floor = z := by
  have hl : z ≤ q.floor := Rat.le_floor.2 h1
  have hu : q.floor < z + 1 := by
    by_contra h
    push_neg at h
    have : ((z + 1 : ℤ) : ℚ) ≤ q := le_trans (by exact_mod_cast Int.cast_le.mpr h) (ratFloor_cast_le q)
    push_cast at this
    linarith
  omega

theorem pyRound_bounds_half (q : ℚ) :
    q - 1/2 ≤ (pyRound q : ℚ) ∧ (pyRound q : ℚ) ≤ q + 1/2 := by
  have h1 := ratFloor_cast_le q
  have h2 := lt_ratFloor_add_one q
  unfold pyRound
  split_ifs with ha hb hc
  · constructor <;> linarith
  · constructor <;> push_cast <;> linarith
  · constructor <;> linarith
  · constructor <;> push_cast <;> linarith

theorem pyRound_range (q : ℚ) (h0 : 0 ≤ q) (h100 : q ≤ 100) :
    0 ≤ pyRound q ∧ pyRound q ≤ 100 := by
  obtain ⟨hl, hu⟩ := pyRound_bounds_half q
  constructor
  · have h : (-1 : ℚ) < (pyRound q : ℚ) := by linarith
    have h' : (-1 : ℤ) < pyRound q := by exact_mod_cast h
    omega
  · have h : (pyRound q : ℚ) < 101 := by linarith
    have h' : pyRound q < (101 : ℤ) := by exact_mod_cast h
    omega

theorem pyRound_eq_of_lt_half (z : ℤ) (q : ℚ) (h1 : (z : ℚ) ≤ q)
    (h2 : q < (z : ℚ) + 1/2) : pyRound q = z := by
  have hf : q.floor = z := ratFloor_eq z q h1 (by linarith)
  unfold pyRound
  rw [hf, if_pos (by linarith)]

/-! ### Sub-score range lemmas -/

theorem pyFloat_nonneg (l : List Char) (v : ℚ) (h : pyFloatDigitsDots l = some v) :
    0 ≤ v := by
  unfold pyFloatDigitsDots at h
  rcases hs : splitOnChar '.' l with _ | ⟨a, _ | ⟨b, _ | _⟩⟩ <;> rw [hs] at h <;>
    dsimp only at h
  · exact absurd h (by simp)
  · by_cases he : a.isEmpty = true
    · rw [if_pos he] at h
      exact absurd h (by simp)
    · rw [if_neg he] at h
      have hv := Option.some.inj h
      rw [← hv]
      positivity
  · by_cases he : (a.isEmpty && b.isEmpty) = true
    · rw [if_pos he] at h
      exact absurd h (by simp)
    · rw [if_neg he] at h
      have hv := Option.some.inj h
      rw [← hv]
      positivity
  · exact absurd h (by simp)

theorem revContrib_nonneg (rev : String) : 0 ≤ revContrib rev := by
  unfold revContrib
  split_ifs
  · exact le_refl 0
  · cases h : pyFloatDigitsDots (rev.data.filter isDigitOrDot) with
    | none => exact le_refl 0
    | some v =>
      have hv := pyFloat_nonneg _ _ h
      have : (0 : ℚ) ≤ min v 10000000 := le_min hv (by norm_num)
      positivity

theorem revContrib_le (rev : String) : revContrib rev ≤ 0.4 := by
  unfold revContrib
  split_ifs
  · norm_num
  · cases h : pyFloatDigitsDots (rev.data.filter isDigitOrDot) with
    | none => norm_num
    | some v =>
      have hm : min v 10000000 ≤ (10000000 : ℚ) := min_le_right _ _
      calc min v 10000000 / 10000000 * 0.4
          ≤ (10000000 : ℚ) / 10000000 * 0.4 := by
            apply mul_le_mul_of_nonneg_right _ (by norm_num)
            exact (div_le_div_iff_of_pos_right (by norm_num)).mpr hm
        _ = 0.4 := by norm_num

theorem completeness_nonneg (lead : Lead) : 0 ≤ completeness_score lead := by
  simp only [completeness_score]
  refine le_min ?_ (by norm_num)
  apply div_nonneg _ (by norm_num)
  refine add_nonneg (add_nonneg (add_nonneg ?_ ?_) ?_) ?_ <;>
    split_ifs <;> norm_num

theorem completeness_le_one (lead : Lead) : completeness_score lead ≤ 1 := by
  simp only [completeness_score]
  exact min_le_right _ _

theorem foldl_max_bounds (f : List String → Bool) (l : List (List String × ℚ))
    (hl : ∀ r ∈ l, r.2 ≤ 1) :
    ∀ b : ℚ, 0 ≤ b → b ≤ 1 →
      0 ≤ l.foldl (fun best rule => if f rule.1 then max best rule.2 else best) b
      ∧ l.foldl (fun best rule => if f rule.1 then max best rule.2 else best) b ≤ 1 := by
  induction l with
  | nil => intro b h0 h1; exact ⟨h0, h1⟩
  | cons r rs ih =>
    intro b h0 h1
    simp only [List.foldl_cons]
    by_cases hf : f r.1
    · rw [if_pos hf]
      exact ih (fun x hx => hl x (List.mem_cons_of_mem r hx)) _
        (le_trans h0 (le_max_left _ _))
        (max_le h1 (hl r (List.mem_cons_self r rs)))
    · rw [if_neg hf]
      exact ih (fun x hx => hl x (List.mem_cons_of_mem r hx)) _ h0 h1

theorem TITLE_KEYWORDS_le_one : ∀ r ∈ TITLE_KEYWORDS, r.2 ≤ 1 := by
  intro r hr
  simp only [TITLE_KEYWORDS, List.mem_cons, List.not_mem_nil, or_false] at hr
  rcases hr with rfl | rfl | rfl | rfl | rfl | rfl <;> norm_num

theorem seniority_nonneg (title : String) : 0 ≤ seniority_score title := by
  simp only [seniority_score]
  split_ifs
  · exact le_refl 0
  · exact (foldl_max_bounds
      (fun pats => pats.any (fun kw => wbSearch kw.data none (normalizeS title).data))
      TITLE_KEYWORDS TITLE_KEYWORDS_le_one 0 le_rfl (by norm_num)).1

theorem seniority_le_one (title : String) : seniority_score title ≤ 1 := by
  simp only [seniority_score]
  split_ifs
  · norm_num
  · exact (foldl_max_bounds
      (fun pats => pats.any (fun kw => wbSearch kw.data none (normalizeS title).data))
      TITLE_KEYWORDS TITLE_KEYWORDS_le_one 0 le_rfl (by norm_num)).2

theorem mxBoost_nonneg (mx_check : Option Bool) (mx : Option Bool) :
    0 ≤ mxBoost mx_check mx := by
  rcases mx_check with _ | b
  · norm_num [mxBoost]
  · cases b
    · norm_num [mxBoost]
    · rcases mx with _ | c
      · norm_num [mxBoost]
      · cases c <;> norm_num [mxBoost]

theorem mxBoost_le (mx_check : Option Bool) (mx : Option Bool) :
    mxBoost mx_check mx ≤ 0.1 := by
  rcases mx_check with _ | b
  · norm_num [mxBoost]
  · cases b
    · norm_num [mxBoost]
    · rcases mx with _ | c
      · norm_num [mxBoost]
      · cases c <;> norm_num [mxBoost]

theorem email_validity_nonneg (lead : Lead) (mx : Option Bool)
    (oracle : String → Option Bool) : 0 ≤ email_validity_score lead mx oracle := by
  simp only [email_validity_score]
  by_cases h1 : getF lead "email" = ""
  · rw [if_pos h1]
  · rw [if_neg h1]
    refine le_min ?_ (by norm_num)
    refine add_nonneg (add_nonneg ?_ ?_) (mxBoost_nonneg mx _)
    · split_ifs <;> norm_num
    · split_ifs <;> norm_num

theorem email_validity_le_one (lead : Lead) (mx : Option Bool)
    (oracle : String → Option Bool) : email_validity_score lead mx oracle ≤ 1 := by
  simp only [email_validity_score]
  by_cases h1 : getF lead "email" = ""
  · rw [if_pos h1]
    norm_num
  · rw [if_neg h1]
    exact min_le_right _ _

theorem domain_match_nonneg (lead : Lead) : 0 ≤ domain_match_score lead := by
  simp only [domain_match_score]
  split_ifs <;> norm_num

theorem domain_match_le_one (lead : Lead) : domain_match_score lead ≤ 1 := by
  simp only [domain_match_score]
  split_ifs <;> norm_num

theorem company_signal_nonneg (lead : Lead) : 0 ≤ company_signal_score lead := by
  simp only [company_signal_score]
  refine le_min ?_ (by norm_num)
  refine add_nonneg ?_ (revContrib_nonneg _)
  split_ifs <;> norm_num

theorem company_signal_le_one (lead : Lead) : company_signal_score lead ≤ 1 := by
  simp only [company_signal_score]
  exact min_le_right _ _

theorem WEIGHTS_completeness : WEIGHTS "completeness" = 0.30 := rfl

theorem WEIGHTS_seniority : WEIGHTS "seniority" = 0.30 := rfl

theorem WEIGHTS_email_validity : WEIGHTS "email_validity" = 0.20 := rfl

theorem WEIGHTS_domain_match : WEIGHTS "domain_match" = 0.10 := rfl

theorem WEIGHTS_company_signal : WEIGHTS "company_signal" = 0.10 := rfl

theorem rawWeighted_bounds (lead : Lead) (mx_check : Option Bool)
    (oracle : String → Option Bool) :
    0 ≤ rawWeighted lead mx_check oracle ∧ rawWeighted lead mx_check oracle ≤ 1 := by
  have h1 := completeness_nonneg lead
  have h2 := completeness_le_one lead
  have h3 := seniority_nonneg (getF lead "job_title")
  have h4 := seniority_le_one (getF lead "job_title")
  have h5 := email_validity_nonneg lead mx_check oracle
  have h6 := email_validity_le_one lead mx_check oracle
  have h7 := domain_match_nonneg lead
  have h8 := domain_match_le_one lead
  have h9 := company_signal_nonneg lead
  have h10 := company_signal_le_one lead
  unfold rawWeighted
  rw [WEIGHTS_completeness, WEIGHTS_seniority, WEIGHTS_email_validity,
    WEIGHTS_domain_match, WEIGHTS_company_signal]
  constructor <;> nlinarith

/-- C1: For every lead record and every `mx_check` setting (and every MX
oracle), the integer score returned by `compute_lead_score` lies in `[0, 100]`
and equals `round(raw_weighted * 100)`, where `raw_weighted` is the weighted
sum of the five sub-scores that is reported (rounded to 4 decimal digits) as
`raw_weighted` in the returned breakdown. -/
theorem claim_C1 (lead : Lead) (mx_check : Option Bool)
    (oracle : String → Option Bool) :
    0 ≤ (compute_lead_score lead mx_check oracle).1
    ∧ (compute_lead_score lead mx_check oracle).1 ≤ 100
    ∧ (compute_lead_score lead mx_check oracle).1
        = pyRound (rawWeighted lead mx_check oracle * 100)
    ∧ (compute_lead_score lead mx_check oracle).2.raw_weighted
        = pyRoundTo 4 (rawWeighted lead mx_check oracle) := by
  obtain ⟨h0, h1⟩ := rawWeighted_bounds lead mx_check oracle
  have hfst : (compute_lead_score lead mx_check oracle).1
      = pyRound (rawWeighted lead mx_check oracle * 100) := rfl
  obtain ⟨hb0, hb1⟩ := pyRound_range (rawWeighted lead mx_check oracle * 100)
    (by linarith) (by linarith)
  exact ⟨by rw [hfst]; exact hb0, by rw [hfst]; exact hb1, hfst, rfl⟩

/-- C2: Each of the five sub-score functions is total for every
string-valued lead input (in this embedding they are Lean functions, hence
never raise), always lands in `[0, 1]`, and yields `0.0` on missing input
(the empty record / empty title). -/
theorem claim_C2 (lead : Lead) (title : String) (mx_check : Option Bool)
    (oracle : String → Option Bool) :
    (0 ≤ completeness_score lead ∧ completeness_score lead ≤ 1)
    ∧ (0 ≤ seniority_score title ∧ seniority_score title ≤ 1)
    ∧ (0 ≤ email_validity_score lead mx_check oracle
        ∧ email_validity_score lead mx_check oracle ≤ 1)
    ∧ (0 ≤ domain_match_score lead ∧ domain_match_score lead ≤ 1)
    ∧ (0 ≤ company_signal_score lead ∧ company_signal_score lead ≤ 1)
    ∧ completeness_score [] = 0
    ∧ seniority_score "" = 0
    ∧ email_validity_score [] mx_check oracle = 0
    ∧ domain_match_score [] = 0
    ∧ company_signal_score [] = 0 := by
  refine ⟨⟨completeness_nonneg lead, completeness_le_one lead⟩,
    ⟨seniority_nonneg title, seniority_le_one title⟩,
    ⟨email_validity_nonneg lead mx_check oracle,
     email_validity_le_one lead mx_check oracle⟩,
    ⟨domain_match_nonneg lead, domain_match_le_one lead⟩,
    ⟨company_signal_nonneg lead, company_signal_le_one lead⟩,
    ?_, ?_, ?_, ?_, ?_⟩
  · norm_num [completeness_score, getF]
  · norm_num [seniority_score]
  · norm_num [email_validity_score, getF]
  · norm_num [domain_match_score, getF]
  · norm_num [company_signal_score, getF, revContrib]

/-- C5: For every lead (and MX oracle), `email_validity_score` with
`mx_check=False` equals `email_validity_score` with `mx_check=None`, and
consequently `compute_lead_score` returns identical (score, breakdown) pairs
for the two settings. -/
theorem claim_C5 (lead : Lead) (oracle : String → Option Bool) :
    email_validity_score lead (some false) oracle
      = email_validity_score lead none oracle
    ∧ compute_lead_score lead (some false) oracle
      = compute_lead_score lead none oracle :=
  ⟨rfl, rfl⟩

/-! ### Claims C6 and C10: company signal and revenue contribution -/

/-- C6 (amended): `company_signal_score` is exactly the sum of its `0.6`
component and the revenue contribution, and the `0.6` component is included
iff the lead's email is truthy and its extracted domain (which may well be
empty, e.g. for a malformed email) is not in the personal webmail set. -/
theorem claim_C6 (lead : Lead) :
    company_signal_score lead =
      (if getF lead "email" ≠ ""
          ∧ is_personal_email_domain (extract_domain_from_email (getF lead "email")) = false
       then (0.6 : ℚ) else 0)
      + revContrib (getF lead "estimated_revenue") := by
  simp only [company_signal_score]
  have hr0 := revContrib_nonneg (getF lead "estimated_revenue")
  have hr4 := revContrib_le (getF lead "estimated_revenue")
  by_cases he : getF lead "email" = ""
  · rw [if_neg (by simp [he]), if_neg (by simp [he]), min_eq_left (by linarith)]
  · by_cases hp : is_personal_email_domain (extract_domain_from_email (getF lead "email"))
    · rw [if_pos he, if_pos hp, if_neg (by simp [hp]), min_eq_left (by linarith)]
    · rw [if_pos he, if_neg (by simp [hp]),
        if_pos ⟨he, by simp [Bool.not_eq_true] at hp; exact hp⟩,
        min_eq_left (by linarith)]

/-- C6 counterexample: For the lead `{email: "bob"}` the email yields no
extractable domain, yet `company_signal_score` still grants the full `0.6`
component — refuting the claim that the `0.6` component requires a non-empty
extracted domain. -/
theorem claim_C6_counterexample :
    company_signal_score [("email", "bob")] = 0.6
    ∧ extract_domain_from_email "bob" = "" := by
  refine ⟨?_, by decide⟩
  have h1 : getF [("email", "bob")] "email" = "bob" := by decide
  have h2 : extract_domain_from_email "bob" = "" := by decide
  have h3 : is_personal_email_domain "" = false := by decide
  have h4 : getF [("email", "bob")] "estimated_revenue" = "" := by decide
  simp only [company_signal_score, h1, h2, h3, h4]
  rw [show revContrib "" = 0 from rfl,
    if_pos (show ("bob" : String) ≠ "" by decide),
    if_neg (show ¬(false = true) by decide), min_eq_left (by norm_num)]
  norm_num

theorem revContrib_eq_of_filter_eq (r1 r2 : String)
    (h : r1.data.filter isDigitOrDot = r2.data.filter isDigitOrDot) :
    revContrib r1 = revContrib r2 := by
  unfold revContrib
  by_cases h1 : r1 = ""
  · subst h1
    rw [if_pos rfl]
    have h' : r2.data.filter isDigitOrDot = [] := by rw [← h]; rfl
    by_cases h2 : r2 = ""
    · rw [if_pos h2]
    · rw [if_neg h2, h', show pyFloatDigitsDots [] = none from rfl]
  · by_cases h2 : r2 = ""
    · subst h2
      rw [if_pos rfl, if_neg h1]
      have h' : r1.data.filter isDigitOrDot = [] := by rw [h]; rfl
      rw [h', show pyFloatDigitsDots [] = none from rfl]
    · rw [if_neg h1, if_neg h2, h]

theorem revContrib_cap (rev : String) (v : ℚ) (hne : rev ≠ "")
    (h : pyFloatDigitsDots (rev.data.filter isDigitOrDot) = some v)
    (hv : (10000000 : ℚ) ≤ v) : revContrib rev = 0.4 := by
  unfold revContrib
  rw [if_neg hne, h]
  dsimp only
  rw [min_eq_right hv]
  norm_num

theorem revContrib_of_digits (r : String)
    (hr : r.data.filter isDigitOrDot = "5000000".data) (hne : r ≠ "") :
    revContrib r = 0.2 := by
  unfold revContrib
  rw [if_neg hne, hr]
  have hd : digitsVal "5000000".data = 5000000 := by decide
  have hp : pyFloatDigitsDots "5000000".data = some ((5000000 : ℕ) : ℚ) := by
    calc pyFloatDigitsDots "5000000".data
        = some ((digitsVal "5000000".data : ℕ) : ℚ) := rfl
      _ = some ((5000000 : ℕ) : ℚ) := by rw [hd]
  rw [hp]
  dsimp only
  rw [min_eq_left (by push_cast; norm_num)]
  push_cast
  norm_num

/-- C10: The estimated-revenue contribution inside `company_signal_score`
is a value in `[0, 0.4]` determined only by the subsequence of digits and
dots of the revenue string (all other characters, including a leading minus
sign, are stripped before parsing), so `"-5000000"` contributes the same
positive `0.2` as `"5000000"`, and any parsed value of at least 10,000,000
(in particular any value above the cap) contributes exactly `0.4`. -/
theorem claim_C10 (lead : Lead) :
    0 ≤ revContrib (getF lead "estimated_revenue")
    ∧ revContrib (getF lead "estimated_revenue") ≤ 0.4
    ∧ (∀ r2 : String,
        (getF lead "estimated_revenue").data.filter isDigitOrDot
          = r2.data.filter isDigitOrDot
        → revContrib (getF lead "estimated_revenue") = revContrib r2)
    ∧ revContrib "-5000000" = revContrib "5000000"
    ∧ revContrib "-5000000" = 0.2
    ∧ (∀ v : ℚ, getF lead "estimated_revenue" ≠ ""
        → pyFloatDigitsDots
            ((getF lead "estimated_revenue").data.filter isDigitOrDot) = some v
        → (10000000 : ℚ) ≤ v
        → revContrib (getF lead "estimated_revenue") = 0.4) := by
  refine ⟨revContrib_nonneg _, revContrib_le _,
    fun r2 h => revContrib_eq_of_filter_eq _ r2 h, ?_, ?_, ?_⟩
  · rw [revContrib_of_digits "-5000000" (by decide) (by decide),
      revContrib_of_digits "5000000" (by decide) (by decide)]
  · exact revContrib_of_digits "-5000000" (by decide) (by decide)
  · exact fun v hne h hv => revContrib_cap _ v hne h hv

/-- C10 witness: The cap clause of C10 instantiated at a concrete lead
whose revenue string parses to 20,000,000. -/
theorem claim_C10_witness :
    revContrib (getF [("estimated_revenue", "20000000")] "estimated_revenue")
      = 0.4 := by
  have hg : getF [("estimated_revenue", "20000000")] "estimated_revenue"
      = "20000000" := by decide
  have hd : digitsVal "20000000".data = 20000000 := by decide
  have hp : pyFloatDigitsDots ("20000000".data.filter isDigitOrDot)
      = some ((20000000 : ℕ) : ℚ) := by
    calc pyFloatDigitsDots ("20000000".data.filter isDigitOrDot)
        = some ((digitsVal "20000000".data : ℕ) : ℚ) := rfl
      _ = some ((20000000 : ℕ) : ℚ) := by rw [hd]
  exact (claim_C10 [("estimated_revenue", "20000000")]).2.2.2.2.2
    ((20000000 : ℕ) : ℚ) (by rw [hg]; decide) (by rw [hg]; exact hp)
    (by push_cast; norm_num)

/-! ### Claim C8: the `{email: "bob@gmail.com"}` scenario -/

theorem bob_completeness : completeness_score bobLead = 1/3 := by
  have h1 : getF bobLead "email" = "bob@gmail.com" := by decide
  have h2 : getF bobLead "phone" = "" := by decide
  have h3 : getF bobLead "linkedin_url" = "" := by decide
  have h4 : getF bobLead "company_domain" = "" := by decide
  have h5 : getF bobLead "company_name" = "" := by decide
  simp [completeness_score, h1, h2, h3, h4, h5]
  norm_num [min_def]

theorem bob_seniority : seniority_score (getF bobLead "job_title") = 0 := by
  have h : getF bobLead "job_title" = "" := by decide
  rw [h]
  simp [seniority_score]

theorem bob_email_validity (oracle : String → Option Bool) :
    email_validity_score bobLead none oracle = 0.6 := by
  have h1 : getF bobLead "email" = "bob@gmail.com" := by decide
  have h2 : email_syntax_valid "bob@gmail.com" = true := by decide
  have h3 : extract_domain_from_email "bob@gmail.com" = "gmail.com" := by decide
  have h4 : is_personal_email_domain "gmail.com" = true := by decide
  simp [email_validity_score, h1, h2, h3, h4,
    show mxBoost none (oracle "gmail.com") = 0 from rfl]
  norm_num [min_def]

theorem bob_domain_match : domain_match_score bobLead = 0 := by
  have h1 : getF bobLead "email" = "bob@gmail.com" := by decide
  have h2 : getF bobLead "company_domain" = "" := by decide
  simp [domain_match_score, h1, h2]

theorem bob_company_signal : company_signal_score bobLead = 0 := by
  have h1 : getF bobLead "email" = "bob@gmail.com" := by decide
  have h2 : extract_domain_from_email "bob@gmail.com" = "gmail.com" := by decide
  have h3 : is_personal_email_domain "gmail.com" = true := by decide
  have h4 : getF bobLead "estimated_revenue" = "" := by decide
  simp [company_signal_score, h1, h2, h3, h4,
    show revContrib "" = 0 from rfl]

theorem bob_rawWeighted (oracle : String → Option Bool) :
    rawWeighted bobLead none oracle = 0.22 := by
  unfold rawWeighted
  rw [bob_completeness, bob_seniority, bob_email_validity oracle,
    bob_domain_match, bob_company_signal, WEIGHTS_completeness,
    WEIGHTS_seniority, WEIGHTS_email_validity, WEIGHTS_domain_match,
    WEIGHTS_company_signal]
  norm_num

theorem pyRoundTo_third : pyRoundTo 3 (1/3 : ℚ) = 0.333 := by
  unfold pyRoundTo
  rw [show ((1 : ℚ)/3) * 10 ^ 3 = 1000/3 by norm_num,
    pyRound_eq_of_lt_half 333 (1000/3) (by norm_num) (by norm_num)]
  norm_num

theorem pyRound_of_int (z : ℤ) (q : ℚ) (h : q = (z : ℚ)) : pyRound q = z :=
  pyRound_eq_of_lt_half z q (le_of_eq h.symm) (by rw [h]; norm_num)

theorem pyRoundTo_zero : pyRoundTo 3 (0 : ℚ) = 0 := by
  unfold pyRoundTo
  rw [pyRound_of_int 0 (0 * 10 ^ 3) (by norm_num)]
  norm_num

theorem pyRoundTo_six_tenths : pyRoundTo 3 (0.6 : ℚ) = 0.6 := by
  unfold pyRoundTo
  rw [pyRound_of_int 600 (0.6 * 10 ^ 3) (by norm_num)]
  norm_num

theorem pyRoundTo_raw22 : pyRoundTo 4 (0.22 : ℚ) = 0.22 := by
  unfold pyRoundTo
  rw [pyRound_of_int 2200 (0.22 * 10 ^ 4) (by norm_num)]
  norm_num

/-- C8 (amended): For the lead `{email: "bob@gmail.com"}` (all other
fields empty, `mx_check` absent), `compute_lead_score` yields the breakdown
`completeness = 0.333`, `seniority = 0`, `email_validity = 0.6`,
`domain_match = 0`, `company_signal = 0`, `raw_weighted = 0.22`, and the
overall integer score `22` (low twenties, not single digits to low teens). -/
theorem claim_C8 (oracle : String → Option Bool) :
    compute_lead_score bobLead none oracle
      = (22, { completeness := 0.333, seniority := 0, email_validity := 0.6,
               domain_match := 0, company_signal := 0, raw_weighted := 0.22 }) := by
  show (pyRound (rawWeighted bobLead none oracle * 100),
    ({ completeness := pyRoundTo 3 (completeness_score bobLead)
       seniority := pyRoundTo 3 (seniority_score (getF bobLead "job_title"))
       email_validity := pyRoundTo 3 (email_validity_score bobLead none oracle)
       domain_match := pyRoundTo 3 (domain_match_score bobLead)
       company_signal := pyRoundTo 3 (company_signal_score bobLead)
       raw_weighted := pyRoundTo 4 (rawWeighted bobLead none oracle) } : Breakdown)) = _
  rw [bob_rawWeighted oracle, bob_completeness, bob_seniority,
    bob_email_validity oracle, bob_domain_match, bob_company_signal,
    pyRound_of_int 22 ((0.22 : ℚ) * 100) (by norm_num),
    pyRoundTo_third, pyRoundTo_zero, pyRoundTo_six_tenths, pyRoundTo_raw22]

/-- C8 counterexample: The overall score of the `{email: "bob@gmail.com"}`
lead is 22, which is not "in the single digits to low teens" (not `≤ 19`). -/
theorem claim_C8_counterexample :
    (compute_lead_score bobLead none (fun _ => none)).1 = 22
    ∧ ¬((compute_lead_score bobLead none (fun _ => none)).1 ≤ 19) := by
  have h : compute_lead_score bobLead none (fun _ => none)
      = (22, { completeness := 0.333, seniority := 0, email_validity := 0.6,
               domain_match := 0, company_signal := 0, raw_weighted := 0.22 }) :=
    claim_C8 (fun _ => none)
  rw [h]
  exact ⟨rfl, by norm_num⟩

/-! ### Claim C3: the prioritizer -/

theorem insertDesc_perm (x : ScoredLead) (l : List ScoredLead) :
    (insertDesc x l).Perm (x :: l) := by
  induction l with
  | nil => exact List.Perm.refl _
  | cons y ys ih =>
    unfold insertDesc
    split_ifs
    · exact List.Perm.refl _
    · exact (List.Perm.cons y ih).trans (List.Perm.swap x y ys)

theorem sortDescScore_perm (l : List ScoredLead) : (sortDescScore l).Perm l := by
  induction l with
  | nil => exact List.Perm.refl _
  | cons x xs ih =>
    show (insertDesc x (sortDescScore xs)).Perm (x :: xs)
    exact (insertDesc_perm x _).trans (List.Perm.cons x ih)

theorem insertDesc_sorted (x : ScoredLead) (l : List ScoredLead)
    (h : l.Pairwise (fun a b => b.score ≤ a.score)) :
    (insertDesc x l).Pairwise (fun a b => b.score ≤ a.score) := by
  induction l with
  | nil => simp [insertDesc]
  | cons y ys ih =>
    rw [List.pairwise_cons] at h
    obtain ⟨hy, hys⟩ := h
    unfold insertDesc
    split_ifs with hxy
    · rw [List.pairwise_cons]
      refine ⟨?_, List.pairwise_cons.mpr ⟨hy, hys⟩⟩
      intro b hb
      rcases List.mem_cons.mp hb with rfl | hb
      · exact hxy
      · exact le_trans (hy b hb) hxy
    · push_neg at hxy
      rw [List.pairwise_cons]
      refine ⟨?_, ih hys⟩
      intro b hb
      rcases List.mem_cons.mp ((insertDesc_perm x ys).mem_iff.mp hb) with rfl | hb
      · exact le_of_lt hxy
      · exact hy b hb

theorem sortDescScore_sorted (l : List ScoredLead) :
    (sortDescScore l).Pairwise (fun a b => b.score ≤ a.score) := by
  induction l with
  | nil => exact List.Pairwise.nil
  | cons x xs ih =>
    show (insertDesc x (sortDescScore xs)).Pairwise _
    exact insertDesc_sorted x _ ih

theorem insertDesc_filter (x : ScoredLead) (l : List ScoredLead) (s : ℤ) :
    (insertDesc x l).filter (fun a => decide (a.score = s))
      = if x.score = s then x :: l.filter (fun a => decide (a.score = s))
        else l.filter (fun a => decide (a.score = s)) := by
  induction l with
  | nil =>
    by_cases hx : x.score = s <;> simp [insertDesc, hx]
  | cons y ys ih =>
    unfold insertDesc
    by_cases hxy : y.score ≤ x.score
    · rw [if_pos hxy]
      by_cases hx : x.score = s <;> by_cases hy : y.score = s <;>
        simp [List.filter_cons, hx, hy]
    · rw [if_neg hxy]
      push_neg at hxy
      by_cases hy : y.score = s
      · have hx : ¬(x.score = s) := by omega
        simp [List.filter_cons, hy, hx, ih]
      · simp [List.filter_cons, hy, ih]

theorem sortDescScore_filter (l : List ScoredLead) (s : ℤ) :
    (sortDescScore l).filter (fun a => decide (a.score = s))
      = l.filter (fun a => decide (a.score = s)) := by
  induction l with
  | nil => rfl
  | cons x xs ih =>
    show (insertDesc x (sortDescScore xs)).filter _ = _
    rw [insertDesc_filter]
    by_cases hx : x.score = s
    · rw [if_pos hx, ih, List.filter_cons, if_pos (by simp [hx])]
    · rw [if_neg hx, ih, List.filter_cons, if_neg (by simp [hx])]

theorem selectLoop_eq_take (p : ℤ) (hp : 1 ≤ p) :
    ∀ (xs : List ScoredLead) (b : ℤ),
      selectLoop p xs b = xs.take (min xs.length (Int.toNat (Int.fdiv b p))) := by
  intro xs
  induction xs with
  | nil => intro b; simp [selectLoop]
  | cons x xs ih =>
    intro b
    unfold selectLoop
    split_ifs with hb
    · rw [ih (b - p)]
      have h1 : Int.fdiv (b - p) p = Int.fdiv b p - 1 := by
        rw [Int.fdiv_eq_ediv _ (by omega), Int.fdiv_eq_ediv _ (by omega),
          show b - p = b + (-1) * p by ring,
          Int.add_mul_ediv_right _ _ (by omega : p ≠ 0)]
        omega
      have h2 : 1 ≤ Int.fdiv b p := by
        rw [Int.fdiv_eq_ediv _ (by omega), Int.le_ediv_iff_mul_le (by omega)]
        omega
      rw [h1]
      have h3 : min (x :: xs).length (Int.toNat (Int.fdiv b p))
          = (min xs.length (Int.toNat (Int.fdiv b p - 1))) + 1 := by
        simp only [List.length_cons]
        omega
      rw [h3, List.take_succ_cons]
    · have h2 : Int.fdiv b p ≤ 0 := by
        rw [Int.fdiv_eq_ediv _ (by omega)]
        by_contra hc
        push_neg at hc
        have := (Int.le_ediv_iff_mul_le (by omega : (0:ℤ) < p)).mp
          (by omega : 1 ≤ b / p)
        omega
      have h3 : min (x :: xs).length (Int.toNat (Int.fdiv b p)) = 0 := by
        simp only [List.length_cons]
        omega
      rw [h3, List.take_zero]

/-- C3 (amended): For every list of scored records, every `credits` and
every `cost_per_enrich ≥ 1`, `prioritize` returns exactly the prefix of
length `min(len(input), max(0, floor(credits / cost_per_enrich)))` (the
`max 0` is `Int.toNat`; it only matters for negative `credits`) of the stable
descending-by-score sort of the input; in particular it never selects more
than `max(0, floor(credits / cost_per_enrich))` records, its output is sorted
descending by score, and the sort is a permutation of the input that is
sorted descending and preserves the relative order of equal scores. -/
theorem claim_C3 (l : List ScoredLead) (credits cost_per_enrich : ℤ)
    (h : 1 ≤ cost_per_enrich) :
    prioritize l credits cost_per_enrich
      = (sortDescScore l).take
          (min l.length (Int.toNat (Int.fdiv credits cost_per_enrich)))
    ∧ (prioritize l credits cost_per_enrich).length
        ≤ Int.toNat (Int.fdiv credits cost_per_enrich)
    ∧ (prioritize l credits cost_per_enrich).Pairwise
        (fun a b => b.score ≤ a.score)
    ∧ (sortDescScore l).Perm l
    ∧ (sortDescScore l).Pairwise (fun a b => b.score ≤ a.score)
    ∧ (∀ s : ℤ, (sortDescScore l).filter (fun a => decide (a.score = s))
        = l.filter (fun a => decide (a.score = s))) := by
  have hsel : prioritize l credits cost_per_enrich
      = (sortDescScore l).take
          (min (sortDescScore l).length
            (Int.toNat (Int.fdiv credits cost_per_enrich))) :=
    selectLoop_eq_take _ h _ _
  have hlen : (sortDescScore l).length = l.length := (sortDescScore_perm l).length_eq
  refine ⟨by rw [hsel, hlen], ?_, ?_, sortDescScore_perm l,
    sortDescScore_sorted l, sortDescScore_filter l⟩
  · rw [hsel, List.length_take]
    omega
  · rw [hsel]
    exact List.Pairwise.sublist (List.take_sublist _ _) (sortDescScore_sorted l)

/-- C3 witness: The spec's scenario: `credits = 2`, `cost_per_enrich = 1`,
three scored leads `[90, 80, 70]` — the prioritizer returns the top-two
prefix of the sorted list. -/
theorem claim_C3_witness :
    (1 : ℤ) ≤ 1
    ∧ prioritize [⟨[], 90⟩, ⟨[], 80⟩, ⟨[], 70⟩] 2 1
        = (sortDescScore [⟨[], 90⟩, ⟨[], 80⟩, ⟨[], 70⟩]).take
            (min ([⟨([] : Lead), 90⟩, ⟨[], 80⟩, ⟨[], 70⟩] : List ScoredLead).length
              (Int.toNat (Int.fdiv 2 1))) :=
  ⟨by norm_num,
   (claim_C3 [⟨[], 90⟩, ⟨[], 80⟩, ⟨[], 70⟩] 2 1 (by norm_num)).1⟩

/-- C3 counterexample: For `credits = -1`, `cost_per_enrich = 1` and one
record, the code selects no records, but `floor(credits / cost_per_enrich)`
is `-1`, so the output is not the prefix of length `min(1, -1) = -1` demanded
by the claim, and the claimed bound `length ≤ floor(credits/cost)` fails
(`0 ≤ -1` is false). The claim as stated is therefore false for negative
credits. -/
theorem claim_C3_counterexample :
    prioritize [⟨[], 50⟩] (-1) 1 = []
    ∧ Int.fdiv (-1) 1 = -1
    ∧ ¬ (((prioritize [⟨([] : Lead), 50⟩] (-1) 1).length : ℤ)
          ≤ Int.fdiv (-1) 1) := by
  have h : prioritize [⟨([] : Lead), 50⟩] (-1) 1 = [] := rfl
  refine ⟨h, by decide, ?_⟩
  rw [h]
  decide

/-! ### Claim C4: the deduplicator is idempotent -/

theorem insUpd_not_mem {K : Type} [DecidableEq K] (m : List (K × Lead)) (k : K)
    (L : Lead) (h : k ∉ m.map Prod.fst) : insUpd m k L = m ++ [(k, L)] := by
  induction m with
  | nil => rfl
  | cons p rest ih =>
    obtain ⟨k', e⟩ := p
    simp only [List.map_cons, List.mem_cons] at h
    push_neg at h
    unfold insUpd
    rw [if_neg (fun hh => h.1 hh.symm)]
    rw [ih h.2]
    rfl

theorem insUpd_mem {K : Type} [DecidableEq K] (m : List (K × Lead)) (k : K)
    (L : Lead) : ∀ p ∈ insUpd m k L, p ∈ m ∨ p = (k, L) := by
  induction m with
  | nil =>
    intro p hp
    simp [insUpd] at hp
    exact Or.inr hp
  | cons q rest ih =>
    obtain ⟨k', e⟩ := q
    intro p hp
    unfold insUpd at hp
    by_cases hk : k' = k
    · rw [if_pos hk] at hp
      rcases List.mem_cons.mp hp with rfl | hp
      · by_cases hc : count_nonempty_fields e < count_nonempty_fields L
        · rw [if_pos hc]
          exact Or.inr rfl
        · rw [if_neg hc]
          exact Or.inl (List.mem_cons_self _ _)
      · exact Or.inl (List.mem_cons_of_mem _ hp)
    · rw [if_neg hk] at hp
      rcases List.mem_cons.mp hp with rfl | hp
      · exact Or.inl (List.mem_cons_self _ _)
      · rcases ih p hp with h | h
        · exact Or.inl (List.mem_cons_of_mem _ h)
        · exact Or.inr h

theorem insUpd_keys {K : Type} [DecidableEq K] (m : List (K × Lead)) (k : K)
    (L : Lead) :
    (insUpd m k L).map Prod.fst
      = if k ∈ m.map Prod.fst then m.map Prod.fst
        else m.map Prod.fst ++ [k] := by
  induction m with
  | nil => simp [insUpd]
  | cons q rest ih =>
    obtain ⟨k', e⟩ := q
    unfold insUpd
    by_cases hk : k' = k
    · subst hk
      rw [if_pos rfl]
      by_cases hc : count_nonempty_fields e < count_nonempty_fields L <;>
        simp [hc]
    · rw [if_neg hk]
      by_cases hmem : k ∈ rest.map Prod.fst
      · simp only [List.map_cons, ih, if_pos hmem]
        rw [if_pos (List.mem_cons_of_mem _ hmem)]
      · simp only [List.map_cons, ih, if_neg hmem]
        rw [if_neg (by
          simp only [List.mem_cons]
          push_neg
          exact ⟨fun hh => hk hh.symm, hmem⟩)]
        simp

theorem insUpd_keys_nodup {K : Type} [DecidableEq K] (m : List (K × Lead))
    (k : K) (L : Lead) (h : (m.map Prod.fst).Nodup) :
    ((insUpd m k L).map Prod.fst).Nodup := by
  rw [insUpd_keys]
  split_ifs with hk
  · exact h
  · simp [List.nodup_append, h, hk]

theorem dictFold_nil {K : Type} [DecidableEq K] (key : Lead → K)
    (init : List (K × Lead)) : dictFold key init [] = init := rfl

theorem dictFold_cons {K : Type} [DecidableEq K] (key : Lead → K)
    (init : List (K × Lead)) (L : Lead) (ls : List Lead) :
    dictFold key init (L :: ls) = dictFold key (insUpd init (key L) L) ls := rfl

theorem dictFold_mem {K : Type} [DecidableEq K] (key : Lead → K)
    (ls : List Lead) :
    ∀ init, ∀ p ∈ dictFold key init ls,
      p ∈ init ∨ (key p.2 = p.1 ∧ p.2 ∈ ls) := by
  induction ls with
  | nil => intro init p hp; exact Or.inl hp
  | cons L ls ih =>
    intro init p hp
    rw [dictFold_cons] at hp
    rcases ih (insUpd init (key L) L) p hp with h | h
    · rcases insUpd_mem init (key L) L p h with h2 | h2
      · exact Or.inl h2
      · subst h2
        exact Or.inr ⟨rfl, List.mem_cons_self _ _⟩
    · exact Or.inr ⟨h.1, List.mem_cons_of_mem _ h.2⟩

theorem dictFold_keys_nodup {K : Type} [DecidableEq K] (key : Lead → K)
    (ls : List Lead) :
    ∀ init, ((init : List (K × Lead)).map Prod.fst).Nodup →
      ((dictFold key init ls).map Prod.fst).Nodup := by
  induction ls with
  | nil => intro init h; exact h
  | cons L ls ih =>
    intro init h
    rw [dictFold_cons]
    exact ih _ (insUpd_keys_nodup init (key L) L h)

theorem dictFold_fresh {K : Type} [DecidableEq K] (key : Lead → K)
    (ls : List Lead) :
    ∀ init, (∀ L ∈ ls, key L ∉ (init : List (K × Lead)).map Prod.fst) →
      (ls.map key).Nodup →
      dictFold key init ls = init ++ ls.map (fun L => (key L, L)) := by
  induction ls with
  | nil => intro init _ _; simp [dictFold_nil]
  | cons L ls ih =>
    intro init hdisj hnd
    rw [dictFold_cons,
      show insUpd init (key L) L = init ++ [(key L, L)] from
        insUpd_not_mem _ _ _ (hdisj L (List.mem_cons_self _ _))]
    rw [List.map_cons, List.nodup_cons] at hnd
    rw [ih (init ++ [(key L, L)])
      (by
        intro L' hL'
        rw [List.map_append]
        simp only [List.mem_append, List.map_cons, List.map_nil,
          List.mem_singleton, not_or]
        refine ⟨hdisj L' (List.mem_cons_of_mem _ hL'), ?_⟩
        intro hh
        exact hnd.1 (hh ▸ List.mem_map_of_mem key hL'))
      hnd.2]
    simp [List.append_assoc]

theorem dedupePhase1_cons (acc : List (String × Lead) × List Lead) (L : Lead)
    (ls : List Lead) :
    dedupePhase1 acc (L :: ls)
      = dedupePhase1
          (if ekey L = "" then (acc.1, acc.2 ++ [L])
           else (insUpd acc.1 (ekey L) L, acc.2)) ls := rfl

theorem dedupePhase1_eq (ls : List Lead) :
    ∀ acc, dedupePhase1 acc ls
      = (dictFold ekey acc.1 (ls.filter (fun L => decide (ekey L ≠ ""))),
         acc.2 ++ ls.filter (fun L => decide (ekey L = ""))) := by
  induction ls with
  | nil =>
    intro acc
    simp [dedupePhase1, dictFold_nil]
  | cons L ls ih =>
    intro acc
    rw [dedupePhase1_cons]
    by_cases hL : ekey L = ""
    · rw [if_pos hL, ih]
      rw [List.filter_cons, List.filter_cons]
      rw [if_neg (by simp [hL]), if_pos (by simp [hL])]
      simp [List.append_assoc]
    · rw [if_neg hL, ih]
      rw [List.filter_cons, List.filter_cons]
      rw [if_pos (by simp [hL]), if_neg (by simp [hL])]
      rw [dictFold_cons]

theorem dedupe_fixpoint (P1 P2 : List Lead)
    (h1 : (P1.map ekey).Nodup) (h2 : ∀ L ∈ P1, ekey L ≠ "")
    (h3 : (P2.map nkey).Nodup) (h4 : ∀ L ∈ P2, ekey L = "") :
    dedupe_leads (P1 ++ P2) = P1 ++ P2 := by
  unfold dedupe_leads
  rw [dedupePhase1_eq]
  have hsplit1 : (P1 ++ P2).filter (fun L => decide (ekey L ≠ "")) = P1 := by
    rw [List.filter_append,
      List.filter_eq_self.mpr (by intro a ha; simpa using h2 a ha),
      List.filter_eq_nil_iff.mpr (by intro a ha; simpa using h4 a ha),
      List.append_nil]
  have hsplit2 : (P1 ++ P2).filter (fun L => decide (ekey L = "")) = P2 := by
    rw [List.filter_append,
      List.filter_eq_nil_iff.mpr (by intro a ha; simpa using h2 a ha),
      List.filter_eq_self.mpr (by intro a ha; simpa using h4 a ha),
      List.nil_append]
  have hfold1 : dictFold ekey [] P1 = P1.map (fun L => (ekey L, L)) := by
    have := dictFold_fresh ekey P1 [] (by simp) h1
    simpa using this
  have hfold2 : dictFold nkey [] P2 = P2.map (fun L => (nkey L, L)) := by
    have := dictFold_fresh nkey P2 [] (by simp) h3
    simpa using this
  show (dictFold ekey []
      ((P1 ++ P2).filter (fun L => decide (ekey L ≠ "")))).map Prod.snd
    ++ (dictFold nkey []
      ([] ++ (P1 ++ P2).filter (fun L => decide (ekey L = "")))).map Prod.snd
    = P1 ++ P2
  rw [List.nil_append, hsplit1, hsplit2, hfold1, hfold2,
    List.map_map, List.map_map]
  rw [show Prod.snd ∘ (fun L : Lead => (ekey L, L)) = id from rfl,
    show Prod.snd ∘ (fun L : Lead => (nkey L, L)) = id from rfl,
    List.map_id, List.map_id]

/-- C4: The deduplicator is idempotent: applying `dedupe_leads` twice
returns exactly the output of applying it once (even as lists, hence also as
sets of kept records). -/
theorem claim_C4 (leads : List Lead) :
    dedupe_leads (dedupe_leads leads) = dedupe_leads leads := by
  have hdef : dedupe_leads leads
      = (dictFold ekey [] (leads.filter (fun L => decide (ekey L ≠ "")))).map Prod.snd
        ++ (dictFold nkey [] (leads.filter (fun L => decide (ekey L = "")))).map Prod.snd := by
    unfold dedupe_leads
    rw [dedupePhase1_eq]
    rw [List.nil_append]
  set E := leads.filter (fun L => decide (ekey L ≠ "")) with hE
  set N := leads.filter (fun L => decide (ekey L = "")) with hN
  set A := dictFold ekey [] E with hA
  set B := dictFold nkey [] N with hB
  have hAmem : ∀ p ∈ A, ekey p.2 = p.1 ∧ p.2 ∈ E := by
    intro p hp
    rcases dictFold_mem ekey E [] p hp with h | h
    · exact absurd h (List.not_mem_nil p)
    · exact h
  have hBmem : ∀ p ∈ B, nkey p.2 = p.1 ∧ p.2 ∈ N := by
    intro p hp
    rcases dictFold_mem nkey N [] p hp with h | h
    · exact absurd h (List.not_mem_nil p)
    · exact h
  have hAkeys : (A.map Prod.fst).Nodup :=
    dictFold_keys_nodup ekey E [] (by simp)
  have hBkeys : (B.map Prod.fst).Nodup :=
    dictFold_keys_nodup nkey N [] (by simp)
  have hP1nodup : ((A.map Prod.snd).map ekey).Nodup := by
    rw [List.map_map]
    have hcg : List.map (ekey ∘ Prod.snd) A = List.map Prod.fst A :=
      List.map_congr_left (fun p hp => (hAmem p hp).1)
    rw [hcg]
    exact hAkeys
  have hP2nodup : ((B.map Prod.snd).map nkey).Nodup := by
    rw [List.map_map]
    have hcg : List.map (nkey ∘ Prod.snd) B = List.map Prod.fst B :=
      List.map_congr_left (fun p hp => (hBmem p hp).1)
    rw [hcg]
    exact hBkeys
  have hP1ne : ∀ L ∈ A.map Prod.snd, ekey L ≠ "" := by
    intro L hL
    obtain ⟨p, hp, rfl⟩ := List.mem_map.mp hL
    have hmem := (hAmem p hp).2
    have := List.of_mem_filter hmem
    simpa using this
  have hP2e : ∀ L ∈ B.map Prod.snd, ekey L = "" := by
    intro L hL
    obtain ⟨p, hp, rfl⟩ := List.mem_map.mp hL
    have hmem := (hBmem p hp).2
    have := List.of_mem_filter hmem
    simpa using this
  rw [hdef]
  exact dedupe_fixpoint (A.map Prod.snd) (B.map Prod.snd)
    hP1nodup hP1ne hP2nodup hP2e

/-! ### Claim C7: domain matching -/

theorem splitOnChar_ne_nil (sep : Char) (l : List Char) :
    splitOnChar sep l ≠ [] := by
  cases l with
  | nil => simp [splitOnChar]
  | cons c rest =>
    unfold splitOnChar
    cases splitOnChar sep rest with
    | nil => simp
    | cons v vs =>
      dsimp only
      by_cases hc : c = sep
      · rw [if_pos hc]
        simp
      · rw [if_neg hc]
        simp

theorem splitOnChar_not_mem (sep : Char) (l : List Char) :
    ∀ w ∈ splitOnChar sep l, sep ∉ w := by
  induction l with
  | nil =>
    intro w hw
    simp [splitOnChar] at hw
    subst hw
    simp
  | cons c rest ih =>
    intro w hw
    unfold splitOnChar at hw
    cases hs : splitOnChar sep rest with
    | nil => exact absurd hs (splitOnChar_ne_nil sep rest)
    | cons v vs =>
      rw [hs] at hw
      dsimp only at hw
      by_cases hc : c = sep
      · rw [if_pos hc] at hw
        rcases List.mem_cons.mp hw with rfl | hw
        · simp
        · exact ih w (hs ▸ hw)
      · rw [if_neg hc] at hw
        rcases List.mem_cons.mp hw with rfl | hw
        · intro hmem
          rcases List.mem_cons.mp hmem with rfl | hmem
          · exact hc rfl
          · exact ih v (hs ▸ List.mem_cons_self v vs) hmem
        · exact ih w (hs ▸ List.mem_cons_of_mem v hw)

theorem extract_domain_no_at (email : String) :
    (extract_domain_from_email email).data.contains '@' = false := by
  unfold extract_domain_from_email
  split_ifs
  · rfl
  · rcases hm : splitOnChar '@' (pyLower (pyStrip email.data))
      with _ | ⟨a, _ | ⟨b, _ | _⟩⟩ <;> dsimp only
    · rfl
    · rfl
    · have hmem : b ∈ splitOnChar '@' (pyLower (pyStrip email.data)) := by
        rw [hm]
        exact List.mem_cons_of_mem a (List.mem_cons_self b [])
      have hnm := splitOnChar_not_mem '@' _ b hmem
      simpa using hnm
    · rfl

theorem lastTwoLabels_empty : lastTwoLabels "" = "" := rfl

/-- C7 (amended): With the optional public-suffix parser absent,
`domain_match_score` returns `1.0` exactly when email and `company_domain`
are both truthy and the last-two-labels registered domain of the email's
extracted domain is non-empty and equal to the last two dot-separated labels
of the *normalized `company_domain` string itself* (which, unlike the claim's
`extract_domain_from_url`, performs no URL parsing); it returns `0.0` in
every other case, in particular whenever either side is absent. -/
theorem claim_C7 (lead : Lead) :
    domain_match_score lead =
      if getF lead "email" ≠ "" ∧ getF lead "company_domain" ≠ ""
          ∧ lastTwoLabels (extract_domain_from_email (getF lead "email")) ≠ ""
          ∧ lastTwoLabels (normalizeS (getF lead "company_domain")) ≠ ""
          ∧ lastTwoLabels (extract_domain_from_email (getF lead "email"))
              = lastTwoLabels (normalizeS (getF lead "company_domain"))
      then 1 else 0 := by
  simp only [domain_match_score]
  have hedr : (if (extract_domain_from_email (getF lead "email")).data.contains '@'
        = true
      then extract_domain_from_email (extract_domain_from_email (getF lead "email"))
      else extract_domain_from_email (getF lead "email"))
      = extract_domain_from_email (getF lead "email") :=
    if_neg (by rw [extract_domain_no_at]; exact Bool.false_ne_true)
  rw [hedr]
  have her : (if extract_domain_from_email (getF lead "email") ≠ "" then
        lastTwoLabels (extract_domain_from_email (getF lead "email")) else "")
      = lastTwoLabels (extract_domain_from_email (getF lead "email")) := by
    split_ifs with h
    · rfl
    · push_neg at h
      rw [h]
      exact lastTwoLabels_empty.symm
  have hcr : (if normalizeS (getF lead "company_domain") ≠ "" then
        lastTwoLabels (normalizeS (getF lead "company_domain")) else "")
      = lastTwoLabels (normalizeS (getF lead "company_domain")) := by
    split_ifs with h
    · rfl
    · push_neg at h
      rw [h]
      exact lastTwoLabels_empty.symm
  rw [her, hcr]
  by_cases h1 : getF lead "email" = "" <;>
    by_cases h2 : getF lead "company_domain" = "" <;>
    by_cases h3 : lastTwoLabels (extract_domain_from_email (getF lead "email")) = "" <;>
    by_cases h4 : lastTwoLabels (normalizeS (getF lead "company_domain")) = "" <;>
    by_cases h5 : lastTwoLabels (extract_domain_from_email (getF lead "email"))
        = lastTwoLabels (normalizeS (getF lead "company_domain")) <;>
    simp [h1, h2, h3, h4, h5]

/-- C7 counterexample: For the lead
`{email: "jane@acme.com", company_domain: "https://acme.com/x"}` both sides
have registered domain `"acme.com"` under the section-4.1 extractor
`extract_domain_from_url`, so the claim as stated demands `domain_match = 1.0`
— but the code compares against the last two labels of the raw normalized
string `"https://acme.com/x"` (no URL parsing) and returns `0.0`. -/
theorem claim_C7_counterexample :
    domain_match_score
        [("email", "jane@acme.com"), ("company_domain", "https://acme.com/x")]
      = 0
    ∧ extract_domain_from_url "https://acme.com/x" = "acme.com"
    ∧ extract_domain_from_url
        (extract_domain_from_email "jane@acme.com") = "acme.com"
    ∧ ("acme.com" : String) ≠ "" := by
  refine ⟨?_, by decide, by decide, by decide⟩
  have e1 : getF [("email", "jane@acme.com"),
      ("company_domain", "https://acme.com/x")] "email" = "jane@acme.com" := by
    decide
  have e2 : getF [("email", "jane@acme.com"),
      ("company_domain", "https://acme.com/x")] "company_domain"
      = "https://acme.com/x" := by decide
  have e3 : extract_domain_from_email "jane@acme.com" = "acme.com" := by decide
  have e4 : normalizeS "https://acme.com/x" = "https://acme.com/x" := by decide
  have e5 : ("acme.com" : String).data.contains '@' = false := by decide
  have e6 : lastTwoLabels "acme.com" = "acme.com" := by decide
  have e7 : lastTwoLabels "https://acme.com/x" = "https://acme.com/x" := by
    decide
  simp [domain_match_score, e1, e2, e3, e4, e5, e6, e7]

/-- C9: `normalize` is idempotent. Quantifying over `Option String` covers
`None`; for non-string Python values `x`, `normalize(x)` first takes
`str(x)`, which is some string, so idempotence over all strings covers them
as well. -/
theorem claim_C9 (x : Option String) :
    normalize (some (normalize x)) = normalize x := by
  cases x with
  | none =>
    show normalizeS "" = ""
    rfl
  | some s => exact normalizeS_idem s

end LeadQP
